import Mathlib

/-!
Verification of the claspy constraint-compiler core (src/claspy.py) against its
specification.

The Python module compiles boolean, bounded-integer and enumerated-value
expressions to ground rules for an answer-set solver.  We shallowly embed the
parts of the module the claims are about:

* `Bit` models one bit of an `IntVar`: either the FALSE sentinel bool
  (`BoolVar` whose literal index equals `FALSE_BOOL.index`) or any other
  boolean, together with the truth value that boolean takes in a fixed model
  of the emitted program.  In every stable model each derived `BoolVar`
  (`^`, `&`, `|`, `==`) denotes its boolean function of the operands, so the
  constraints emitted by `require(...)` are modelled as boolean equations on
  those values.
* `St` models the process-wide mutable state (`last_bool` literal counter,
  `clasp_rules` rule buffer, `single_vars` optimizer set); the rule-emitting
  operations are explicit state-passing translations of the Python functions.
* Python exceptions on paths the claims reach are modelled explicitly
  (`setBits` returns a raised-flag); `max([])` inside `constrain_sum` cannot
  be reached from the call sites in the module and is modelled as `false`
  (no constraint set, unsatisfiable).
-/

/-- One bit of an `IntVar`, as seen in a fixed model of the emitted program:
`fls` is a `BoolVar` whose index equals `FALSE_BOOL.index` (so its value is
false in every model), `var v` is any other `BoolVar` (including the TRUE
sentinel, which is `var true`) whose value in the fixed model is `v`. -/
inductive Bit where
  | fls : Bit
  | var : Bool → Bit
deriving DecidableEq, Repr

/-- The value of the bit in the fixed model (`BoolVar.value`). -/
def Bit.val : Bit → Bool
  | .fls => false
  | .var v => v

/-- Whether the bit's literal index equals `FALSE_BOOL.index`
(the test `b.index != FALSE_BOOL.index` used by `constrain_sum` and
`IntVar.__add__`, negated). -/
def Bit.isF : Bit → Bool
  | .fls => true
  | .var _ => false

/-- `bits[i].value()` with Python's indexing into the bit list; indices past
the end read as a FALSE bit (all `IntVar`s built by the module have length
`NUM_BITS`, see claim C5). -/
def bitAt (bits : List Bit) (i : Nat) : Bool := (bits.getD i Bit.fls).val

/-- `bits[i].index != FALSE_BOOL.index` as a predicate on the index `i`. -/
def bitNonF (bits : List Bit) (i : Nat) : Bool := !((bits.getD i Bit.fls).isF)

/-- Weighted bit sum `sum([(1 << i) for i in range k if X i])`. -/
def bitSum (X : Nat → Bool) (k : Nat) : Nat :=
  ((List.range k).map fun i => if X i then 2 ^ i else 0).sum

/-- `IntVar.value()`: `sum([(1 << i) for i in BITS if self.bits[i].value()])`
with `BITS = range(NUM_BITS)`. -/
def intValue (n : Nat) (bits : List Bit) : Nat := bitSum (bitAt bits) n

/-- The ripple-carry chain of `constrain_sum`:
`c = (a.bits[i] & b.bits[i]) | ((a.bits[i] ^ b.bits[i]) & c)`, starting from
`c = False`. -/
def carry (A B : Nat → Bool) : Nat → Bool
  | 0 => false
  | i + 1 => (A i && B i) || (xor (A i) (B i) && carry A B i)

/-- Python `max` over a list (`None` on the empty list, where Python raises
`ValueError`). -/
def listMax : List Nat → Option Nat
  | [] => none
  | x :: xs =>
    match listMax xs with
    | none => some x
    | some y => some (max x y)

/-- The loop body of `constrain_sum`, as the conjunction (in the fixed model)
of the booleans it `require`s.  At index `i` with running carry value `c` it
requires `result.bits[i] == (a.bits[i] ^ b.bits[i]) ^ c`; if `i == max_bit` it
returns early, otherwise it updates the carry; when the loop over
`BITS = range(NUM_BITS)` ends it requires `~c` (overflow forbidden).  `fuel`
is the number of loop iterations left, `NUM_BITS - i`. -/
def sumLoop (A B R : Nat → Bool) (maxBit : Nat) : Nat → Nat → Bool → Bool
  | 0, _, c => !c
  | fuel + 1, i, c =>
    let d := xor (A i) (B i)
    (R i == xor d c) &&
      (if i = maxBit then true
       else sumLoop A B R maxBit fuel (i + 1) ((A i && B i) || (d && c)))

/-- The list whose Python `max` is `max_bit` in `constrain_sum`:
`[i+1 for i in BITS if a.bits[i].index != FALSE] + [i+1 for ... b ...] +
[i for i in BITS if result.bits[i].index != FALSE]`. -/
def sumCandidates (n : Nat) (a b r : List Bit) : List Nat :=
  ((List.range n).filter (bitNonF a)).map (· + 1) ++
    ((List.range n).filter (bitNonF b)).map (· + 1) ++
    (List.range n).filter (bitNonF r)

/-- `constrain_sum(a, b, result)`: whether the fixed model satisfies every
boolean the call `require`s.  `n` is `NUM_BITS`.  On the empty candidate list
Python's `max([])` raises before any constraint is emitted; that path is
unreachable from `__add__`/`__sub__` and is modelled as `false`. -/
def constrainSum (n : Nat) (a b r : List Bit) : Bool :=
  match listMax (sumCandidates n a b r) with
  | none => false
  | some maxBit => sumLoop (bitAt a) (bitAt b) (bitAt r) maxBit n 0 false

/-- `IntVar.__sub__`: `result = IntVar(); constrain_sum(result, x, self)` —
the emitted constraint set, as satisfied by the fixed model. -/
def intSubConstraint (n : Nat) (self x r : List Bit) : Bool := constrainSum n r x self

/-- `IntVar.__rsub__`: the source binds `__rsub__ = __sub__`, so the reflected
call `c - a` evaluates `a.__sub__(c)` with unswapped operands. -/
def intRSubConstraint (n : Nat) (self x r : List Bit) : Bool := intSubConstraint n self x r

/-- The bit list of the constant constructor `IntVar(val)`:
`[(TRUE_BOOL if ((val >> i) & 1) else FALSE_BOOL) for i in BITS]`. -/
def intConstBits (n : Nat) (v : Nat) : List Bit :=
  (List.range n).map fun i => if Nat.testBit v i then Bit.var true else Bit.fls

/-- `IntVar.__lshift__(i)`: returns `self` for `i == 0`, the all-FALSE
constant for `i >= NUM_BITS`, otherwise prepends `i` FALSE bits to
`self.bits[:-i]`. -/
def intLshift (n : Nat) (bits : List Bit) (i : Nat) : List Bit :=
  if i = 0 then bits
  else if n ≤ i then intConstBits n 0
  else List.replicate i Bit.fls ++ bits.take (bits.length - i)

/-- `IntVar.__rshift__(i)`: `self.bits[i:] + [FALSE_BOOL for x in range(i)]`
(no clamp for `i` past the width, unlike `__lshift__`). -/
def intRshift (bits : List Bit) (i : Nat) : List Bit :=
  bits.drop i ++ List.replicate i Bit.fls

/-- A rule of the buffer `clasp_rules`, kept in structured form; the wire
encoding emitted by `add_basic_rule` / `add_choice_rule` / `add_weight_rule`
is `encodeRule` below.  `basic head lits` keeps the post-optimization body
literals in order, signed. -/
inductive Rule where
  | basic : Int → List Int → Rule
  | choice : List Int → List Int → Rule
  | weight : Int → Int → List Int → Rule
deriving DecidableEq, Repr

/-- The SMODELS wire encoding of a rule, as written by `add_rule`:
negative body literals first as absolute values, then positive ones
(`1 head #lits #neg [neg] [pos]`, `3 #heads [heads] #lits #neg [neg] [pos]`,
`5 head bound #lits #neg [neg] [pos] [weights]`, weights all 1). -/
def encodeRule : Rule → List Int
  | .basic head lits =>
    let negs := (lits.filter fun x => x < 0).map fun x => -x
    let poss := lits.filter fun x => 0 < x
    [1, head, (lits.length : Int), (negs.length : Int)] ++ negs ++ poss
  | .choice heads lits =>
    let negs := (lits.filter fun x => x < 0).map fun x => -x
    let poss := lits.filter fun x => 0 < x
    [3, (heads.length : Int)] ++ heads ++ [(lits.length : Int), (negs.length : Int)] ++ negs ++ poss
  | .weight head bound lits =>
    let negs := (lits.filter fun x => x < 0).map fun x => -x
    let poss := lits.filter fun x => 0 < x
    [5, head, bound, (lits.length : Int), (negs.length : Int)] ++ negs ++ poss ++
      List.replicate lits.length 1

/-- The process-wide mutable state of the module: the literal counter
`last_bool`, the rule buffer `clasp_rules`, and the optimizer's set
`single_vars` of literals known unconditionally true. -/
structure St where
  lastBool : Int
  rules : List Rule
  singleVars : List Int
deriving DecidableEq, Repr

/-- `TRUE_BOOL.index`: the first literal allocated after a reset. -/
def TRUE_IDX : Int := 2

/-- `FALSE_BOOL = ~TRUE_BOOL`, so its index is the negation. -/
def FALSE_IDX : Int := -2

/-- `new_literal()`: increments `last_bool` and returns it. -/
def newLiteral (s : St) : Int × St :=
  (s.lastBool + 1, { s with lastBool := s.lastBool + 1 })

/-- `add_rule`: appends to `clasp_rules` in creation order. -/
def addRule (r : Rule) (s : St) : St := { s with rules := s.rules ++ [r] }

/-- The result of one pass of the scanning loop in `optimize_basic_rule`
for a headless rule with two or more body literals. -/
inductive ObrStep where
  | skip : ObrStep
  | shrink : Int → ObrStep
  | keep : ObrStep
deriving DecidableEq, Repr

/-- The `for x in literals` loop of `optimize_basic_rule`: for the first
literal `x` with `-x` known true the whole clause is vacuous (`skip`); for the
first literal `x` known true the literal is redundant and the rule is
re-optimized without it (`shrink x`); otherwise nothing changes (`keep`). -/
def findAction (sv : List Int) : List Int → ObrStep
  | [] => .keep
  | x :: rest =>
    if -x ∈ sv then .skip
    else if x ∈ sv then .shrink x
    else findAction sv rest

/-- One non-recursive pass of `optimize_basic_rule`: either a final result
(`inl`: the optimized body, `none` meaning drop the rule, with the updated
`single_vars`), or (`inr x`) the instruction to re-optimize after removing
every occurrence of the known-true literal `x` from the body. -/
def obrStep (head : Int) (sv literals : List Int) :
    (Option (List Int) × List Int) ⊕ Int :=
  if literals.length = 0 then
    .inl (if head ∈ sv then (none, sv) else (some literals, head :: sv))
  else if head = 1 ∧ literals.length = 1 then
    .inl (if -(literals.headD 0) ∈ sv then (none, sv)
          else (some literals, -(literals.headD 0) :: sv))
  else if head = 1 then
    match findAction sv literals with
    | .skip => .inl (none, sv)
    | .shrink x => .inr x
    | .keep => .inl (some literals, sv)
  else .inl (some literals, sv)

/-- The recursion of `optimize_basic_rule`.  Python's recursion terminates
because each `shrink` call strictly shortens the literal list; the fuel makes
that measure explicit (callers pass `literals.length`, which always
suffices), keeping the function computable; the fuel-exhausted branch is
unreachable. -/
def obrGo (head : Int) (sv : List Int) : Nat → List Int → Option (List Int) × List Int
  | 0, literals =>
    match obrStep head sv literals with
    | .inl r => r
    | .inr _ => (some literals, sv)
  | fuel + 1, literals =>
    match obrStep head sv literals with
    | .inl r => r
    | .inr x => obrGo head sv fuel (literals.filter fun y => y != x)

/-- `optimize_basic_rule(head, literals)` with the global `single_vars`
passed and returned explicitly. -/
def optimizeBasicRule (head : Int) (literals : List Int) (sv : List Int) :
    Option (List Int) × List Int :=
  obrGo head sv literals.length literals

/-- `add_basic_rule(head, literals)`: runs the optimizer (which may say to
skip the rule) and appends the encoded basic rule.  The Python `assert
head > 0` always holds at the call sites modelled here. -/
def addBasicRule (head : Int) (literals : List Int) (s : St) : St :=
  match optimizeBasicRule head literals s.singleVars with
  | (none, sv) => { s with singleVars := sv }
  | (some lits, sv) =>
    { s with singleVars := sv, rules := s.rules ++ [Rule.basic head lits] }

/-- `add_choice_rule(heads, literals)`. -/
def addChoiceRule (heads literals : List Int) (s : St) : St :=
  addRule (Rule.choice heads literals) s

/-- `add_weight_rule(head, bound, literals)`. -/
def addWeightRule (head : Int) (bound : Int) (literals : List Int) (s : St) : St :=
  addRule (Rule.weight head bound literals) s

/-- `BoolVar()`: allocate a fresh literal and define it with a choice rule. -/
def boolVarNew (s : St) : Int × St :=
  let p := newLiteral s
  (p.1, addChoiceRule [p.1] [] p.2)

/-- `BoolVar('internal')`: allocate a fresh literal, no choice rule. -/
def boolVarInternal (s : St) : Int × St := newLiteral s

/-- `require(x)` on a `BoolVar` of index `x`: a basic rule with the false
head `1` and body `[-x]`. -/
def requireIdx (x : Int) (s : St) : St := addBasicRule 1 [-x] s

/-- The state right after `reset()`: `last_bool = 1`, then
`TRUE_BOOL = BoolVar()` (index 2, choice rule) and `require(TRUE_BOOL)`. -/
def initState : St := { lastBool := 1, rules := [], singleVars := [] }

/-- End state of `reset()`; `FALSE_BOOL = ~TRUE_BOOL` allocates nothing. -/
def resetState : St :=
  let p := boolVarNew initState
  requireIdx p.1 p.2

/-- `BoolVar.__eq__` (unmemoized body): folds when the converted second
operand is the TRUE or FALSE sentinel, otherwise allocates an internal
variable with rules `r <- a, b` and `r <- -a, -b`. -/
def boolEq (a b : Int) (s : St) : Int × St :=
  if b = TRUE_IDX then (a, s)
  else if b = FALSE_IDX then (-a, s)
  else
    let p := boolVarInternal s
    let s1 := addBasicRule p.1 [a, b] p.2
    let s2 := addBasicRule p.1 [-a, -b] s1
    (p.1, s2)

/-- `BoolVar.__and__` (unmemoized body). -/
def boolAnd (a b : Int) (s : St) : Int × St :=
  if b = TRUE_IDX then (a, s)
  else if b = FALSE_IDX then (FALSE_IDX, s)
  else
    let p := boolVarInternal s
    (p.1, addBasicRule p.1 [a, b] p.2)

/-- `BoolVar.__or__` (unmemoized body). -/
def boolOr (a b : Int) (s : St) : Int × St :=
  if b = TRUE_IDX then (TRUE_IDX, s)
  else if b = FALSE_IDX then (a, s)
  else
    let p := boolVarInternal s
    let s1 := addBasicRule p.1 [a] p.2
    let s2 := addBasicRule p.1 [b] s1
    (p.1, s2)

/-- `BoolVar.__xor__` (unmemoized body). -/
def boolXor (a b : Int) (s : St) : Int × St :=
  if b = TRUE_IDX then (-a, s)
  else if b = FALSE_IDX then (a, s)
  else
    let p := boolVarInternal s
    let s1 := addBasicRule p.1 [a, -b] p.2
    let s2 := addBasicRule p.1 [b, -a] s1
    (p.1, s2)

/-- `BoolVar.__gt__` (unmemoized body). -/
def boolGt (a b : Int) (s : St) : Int × St :=
  if b = TRUE_IDX then (FALSE_IDX, s)
  else if b = FALSE_IDX then (a, s)
  else
    let p := boolVarInternal s
    (p.1, addBasicRule p.1 [a, -b] p.2)

/-- `at_least(n, bools)`: one weight rule of the given bound over the
literals, head an internal variable. -/
def atLeast (bound : Int) (bools : List Int) (s : St) : Int × St :=
  let p := boolVarInternal s
  (p.1, addWeightRule p.1 bound bools p.2)

/-- `at_most(n, bools) = ~at_least(n + 1, bools)`. -/
def atMost (bound : Int) (bools : List Int) (s : St) : Int × St :=
  let p := atLeast (bound + 1) bools s
  (-p.1, p.2)

/-- `sum_bools(n, bools) = at_least(n, bools) & at_most(n, bools)`. -/
def sumBools (bound : Int) (bools : List Int) (s : St) : Int × St :=
  let p := atLeast bound bools s
  let q := atMost bound bools p.2
  boolAnd p.1 q.1 q.2

/-- `MultiVar.__init__(*values)` over host values `V`, returning the
value-to-boolean map (association list, Python dict insertion order) and the
updated state.  An empty argument list yields the uninitialized internal
object; a one-element list binds the value to `TRUE_BOOL` with no rule;
otherwise each distinct value (Python `set(values)`, here first-occurrence
order) gets a fresh `BoolVar` and `require(sum_bools(1, vals.values()))` is
emitted.  (The claims only involve non-variable hashable values, so the
`hash(v)` probe and the variable-rejection loop never raise.) -/
def multiVarInit {V : Type} [DecidableEq V] (values : List V) (s : St) :
    List (V × Int) × St :=
  match values with
  | [] => ([], s)
  | [v] => ([(v, TRUE_IDX)], s)
  | _ =>
    let dvals := values.dedup
    let p := dvals.foldl
      (fun (acc : List (V × Int) × St) v =>
        let q := boolVarNew acc.2
        (acc.1 ++ [(v, q.1)], q.2))
      ([], s)
    let q := sumBools 1 (p.1.map Prod.snd) p.2
    (p.1, requireIdx q.1 q.2)

/-- A Python value flowing through `MultiVar.boolean_op`: either a host
`bool` or a `BoolVar` handle (by literal index). -/
inductive PB where
  | pyBool : Bool → PB
  | bv : Int → PB
deriving DecidableEq, Repr

/-- `BoolVar(x)` conversion of such a value: host bools map to the TRUE/FALSE
sentinels, a `BoolVar` keeps its index. -/
def pbToIdx : PB → Int
  | .pyBool b => if b then TRUE_IDX else FALSE_IDX
  | .bv i => i

/-- Python `a | b` inside `reduce` over the terms of `boolean_op`: host bools
or together as host values; a `BoolVar` on either side dispatches to
`BoolVar.__or__`/`__ror__` (which converts the other side to a sentinel). -/
def pbOr (a b : PB) (s : St) : PB × St :=
  match a, b with
  | .pyBool x, .pyBool y => (.pyBool (x || y), s)
  | .pyBool x, .bv j =>
    let p := boolOr j (pbToIdx (.pyBool x)) s
    (.bv p.1, p.2)
  | .bv i, _ =>
    let p := boolOr i (pbToIdx b) s
    (.bv p.1, p.2)

/-- `MultiVar.boolean_op(a, op, b)` with `b` already converted to a
value-to-boolean map.  Counts the true/false pairs of the cross product,
inverts the sense if the false set is smaller, builds the terms
`cond(op(av,bv) ^ invert, a_bool & b_bool, False)` (the conjunction is
evaluated eagerly, as in Python; `cond` on a host-bool predicate just selects
a branch), ors the terms together, and xors the `BoolVar`-cast of the result
with the inversion flag. -/
def booleanOp {V : Type} [DecidableEq V] (avals : List (V × Int)) (op : V → V → Bool)
    (bvals : List (V × Int)) (s : St) : Int × St :=
  let pairs := avals.flatMap fun av => bvals.map fun bv => (av, bv)
  let trueCount := (pairs.filter fun p => op p.1.1 p.2.1).length
  let falseCount := (pairs.filter fun p => !(op p.1.1 p.2.1)).length
  let invert : Bool := decide (falseCount < trueCount)
  let ts := pairs.foldl
    (fun (acc : List PB × St) p =>
      let term := xor (op p.1.1 p.2.1) invert
      let q := boolAnd p.1.2 p.2.2 acc.2
      (acc.1 ++ [if term then PB.bv q.1 else PB.pyBool false], q.2))
    ([], s)
  match ts.1 with
  | [] => (if invert then -FALSE_IDX else FALSE_IDX, ts.2)
  | t :: rest =>
    let q := rest.foldl (fun (acc : PB × St) b => pbOr acc.1 b acc.2) (t, ts.2)
    let ridx := pbToIdx q.1
    (if invert then -ridx else ridx, q.2)

/-- `MultiVar.__eq__(a, b)` for a non-`MultiVar` second operand `v`:
`boolean_op` converts `v` with `MultiVar(v)`, whose map is `{v: TRUE_BOOL}`. -/
def multiVarEqConst {V : Type} [DecidableEq V] (avals : List (V × Int)) (v : V)
    (s : St) : Int × St :=
  booleanOp avals (fun x y => decide (x = y)) [(v, TRUE_IDX)] s

/-- `MultiVar.__ne__(a, v) = ~(a == v)`: negation flips the index. -/
def multiVarNeConst {V : Type} [DecidableEq V] (avals : List (V × Int)) (v : V)
    (s : St) : Int × St :=
  let p := multiVarEqConst avals v s
  (-p.1, p.2)

/-- Truth value of a signed literal under an assignment of the positive
atoms (`BoolVar.value()`). -/
def litVal (rho : Int → Bool) (l : Int) : Bool :=
  if 0 < l then rho l else !(rho (-l))

/-- Classical satisfaction of an emitted rule, a necessary condition on every
stable model the solver can report: a basic rule with the reserved false head
`1` forbids its body; with a real head it implies the head; a choice rule
constrains nothing; a weight rule implies its head when the bound is met. -/
def ruleSat (rho : Int → Bool) : Rule → Bool
  | .basic head lits =>
    !(lits.all (litVal rho)) || (decide (head ≠ 1) && litVal rho head)
  | .choice _ _ => true
  | .weight head bound lits =>
    decide ((lits.countP (litVal rho) : Int) < bound) || litVal rho head

/-- Association-list lookup, first match wins (Python dict access by key). -/
def lookupKey {α β : Type} [DecidableEq α] : List (α × β) → α → Option β
  | [], _ => none
  | (k, v) :: rest, key => if k = key then some v else lookupKey rest key

/-- The cache key of `memoized_symmetric`: `tuple(sorted(map(hash_object,
args)))` for a binary call. -/
def memoKeySym {α : Type} [LinearOrder α] (x y : α) : α × α :=
  if x ≤ y then (x, y) else (y, x)

/-- A binary call through the `memoized_symmetric` decorator: arguments of
type `γ` with structural hashes in `α` (`hash_object`: a `BoolVar` hashes to
its signed index), cache an association list, underlying function `f`
threading the process state `σ`.  On a hit the cached handle is returned and
neither the state nor the cache changes; on a miss `f` runs and the result is
stored. -/
def memoSymCall {γ α β σ : Type} [LinearOrder α] [DecidableEq α]
    (hash : γ → α) (f : γ → γ → σ → β × σ) (x y : γ) (s : σ)
    (cache : List ((α × α) × β)) : β × σ × List ((α × α) × β) :=
  let key := memoKeySym (hash x) (hash y)
  match lookupKey cache key with
  | some v => (v, s, cache)
  | none =>
    let p := f x y s
    (p.1, p.2, (key, p.1) :: cache)

/-- A binary call through the plain `memoized` decorator: the key
`tuple(map(hash_object, args))` preserves argument order. -/
def memoCall {γ α β σ : Type} [DecidableEq α]
    (hash : γ → α) (f : γ → γ → σ → β × σ) (x y : γ) (s : σ)
    (cache : List ((α × α) × β)) : β × σ × List ((α × α) × β) :=
  let key := (hash x, hash y)
  match lookupKey cache key with
  | some v => (v, s, cache)
  | none =>
    let p := f x y s
    (p.1, p.2, (key, p.1) :: cache)

/-- `set_bits(n)`: raises (flag `true`, globals untouched) when any literal
beyond the boot TRUE/FALSE pair has been allocated (`last_bool > 2`);
otherwise sets `NUM_BITS` to `n`.  The pair is `(NUM_BITS, last_bool)`. -/
def setBits (n : Nat) (numBits : Nat) (lastBool : Int) : (Nat × Int) × Bool :=
  if lastBool > 2 then ((numBits, lastBool), true)
  else ((n, lastBool), false)

theorem bitSum_succ (X : Nat → Bool) (k : Nat) :
    bitSum X (k + 1) = bitSum X k + (if X k then 2 ^ k else 0) := by
  simp [bitSum, List.range_succ]

theorem bitSum_lt (X : Nat → Bool) (k : Nat) : bitSum X k < 2 ^ k := by
  induction k with
  | zero => simp [bitSum]
  | succ k ih =>
    rw [bitSum_succ, pow_succ]
    split <;> omega

theorem bitSum_congr_false {X : Nat → Bool} {k K : Nat} (hkK : k ≤ K)
    (h : ∀ j, k ≤ j → j < K → X j = false) : bitSum X K = bitSum X k := by
  induction K with
  | zero =>
    have : k = 0 := by omega
    subst this
    rfl
  | succ K ih =>
    rcases Nat.lt_or_ge k (K + 1) with hlt | hge
    · have hk : k ≤ K := by omega
      rw [bitSum_succ, h K hk (by omega)]
      simpa using ih hk fun j h1 h2 => h j h1 (by omega)
    · have : k = K + 1 := by omega
      subst this
      rfl

theorem carry_succ (A B : Nat → Bool) (i : Nat) :
    carry A B (i + 1) = ((A i && B i) || (xor (A i) (B i) && carry A B i)) := rfl

theorem adder_sum (A B R : Nat → Bool) (k : Nat)
    (h : ∀ j, j < k → R j = xor (xor (A j) (B j)) (carry A B j)) :
    bitSum A k + bitSum B k = bitSum R k + 2 ^ k * (if carry A B k then 1 else 0) := by
  induction k with
  | zero => simp [bitSum, carry]
  | succ k ih =>
    have hR := h k (Nat.lt_succ_self k)
    have ihh := ih fun j hj => h j (Nat.lt_succ_of_lt hj)
    rw [bitSum_succ, bitSum_succ, bitSum_succ, hR, carry_succ, pow_succ]
    cases hA : A k <;> cases hB : B k <;> cases hC : carry A B k <;>
      simp only [hA, hB, hC] at * <;> simp_all <;> omega

theorem listMax_mem {l : List Nat} {m : Nat} (h : listMax l = some m) : m ∈ l := by
  induction l generalizing m with
  | nil => simp [listMax] at h
  | cons x xs ih =>
    rw [listMax] at h
    cases hx : listMax xs with
    | none => rw [hx] at h; cases h; exact List.mem_cons_self x xs
    | some y =>
      rw [hx] at h
      cases h
      rcases Nat.le_total x y with hxy | hxy
      · rw [Nat.max_eq_right hxy]; exact List.mem_cons_of_mem x (ih hx)
      · rw [Nat.max_eq_left hxy]; exact List.mem_cons_self x xs

theorem le_listMax_of_mem {l : List Nat} {x m : Nat} (hx : x ∈ l)
    (h : listMax l = some m) : x ≤ m := by
  induction l generalizing m with
  | nil => cases hx
  | cons a t ih =>
    rw [listMax] at h
    cases ht : listMax t with
    | none =>
      rw [ht] at h
      cases h
      cases hx with
      | head => exact Nat.le_refl _
      | tail _ hmem =>
        cases t with
        | nil => cases hmem
        | cons b u =>
          rw [listMax] at ht
          cases hu : listMax u with
          | none => rw [hu] at ht; cases ht
          | some y => rw [hu] at ht; cases ht
    | some y =>
      rw [ht] at h
      cases h
      cases hx with
      | head => exact Nat.le_max_left _ y
      | tail _ hmem => exact Nat.le_trans (ih hmem ht) (Nat.le_max_right _ y)

theorem sumLoop_spec (A B R : Nat → Bool) (m : Nat) :
    ∀ fuel i, i ≤ m → sumLoop A B R m fuel i (carry A B i) = true →
      (∀ j, i ≤ j → j ≤ m → j < i + fuel →
        R j = xor (xor (A j) (B j)) (carry A B j)) ∧
      (i + fuel ≤ m → carry A B (i + fuel) = false) := by
  intro fuel
  induction fuel with
  | zero =>
    intro i him h
    simp only [sumLoop, Bool.not_eq_true'] at h
    exact ⟨fun j h1 _ h3 => absurd h3 (by omega), fun _ => h⟩
  | succ fuel ih =>
    intro i him h
    simp only [sumLoop, Bool.and_eq_true, beq_iff_eq] at h
    obtain ⟨hRi, hrest⟩ := h
    by_cases heq : i = m
    · refine ⟨fun j h1 h2 h3 => ?_, fun hle => ?_⟩
      · have : j = i := by omega
        subst this
        exact hRi
      · exact absurd hle (by omega)
    · rw [if_neg heq] at hrest
      have him1 : i + 1 ≤ m := by omega
      have hc : ((A i && B i) || (xor (A i) (B i) && carry A B i)) = carry A B (i + 1) := rfl
      rw [hc] at hrest
      obtain ⟨ih1, ih2⟩ := ih (i + 1) him1 hrest
      refine ⟨fun j h1 h2 h3 => ?_, fun hle => ?_⟩
      · rcases Nat.eq_or_lt_of_le h1 with hji | hji
        · subst hji; exact hRi
        · exact ih1 j hji h2 (by omega)
      · have := ih2 (by omega)
        rwa [show i + 1 + fuel = i + (fuel + 1) by omega] at this

theorem findAction_shrink_mem {sv l : List Int} {x : Int}
    (h : findAction sv l = .shrink x) : x ∈ l := by
  induction l with
  | nil => simp [findAction] at h
  | cons a t ih =>
    rw [findAction] at h
    by_cases h1 : -a ∈ sv
    · rw [if_pos h1] at h; cases h
    · rw [if_neg h1] at h
      by_cases h2 : a ∈ sv
      · rw [if_pos h2] at h
        injection h with hax
        subst hax
        exact List.mem_cons_self a t
      · rw [if_neg h2] at h
        exact List.mem_cons_of_mem a (ih h)

theorem filter_bne_length_lt {x : Int} {l : List Int} (hx : x ∈ l) :
    (l.filter fun y => y != x).length < l.length := by
  induction l with
  | nil => cases hx
  | cons a t ih =>
    by_cases hax : a = x
    · subst hax
      rw [List.filter_cons_of_neg (by simp)]
      exact Nat.lt_succ_of_le (List.length_filter_le _ t)
    · cases hx with
      | head => exact absurd rfl hax
      | tail _ hmem =>
        rw [List.filter_cons_of_pos (by simp [hax])]
        exact Nat.succ_lt_succ (ih hmem)

theorem obrGo_zero (head : Int) (sv literals : List Int) :
    obrGo head sv 0 literals =
      match obrStep head sv literals with
      | .inl r => r
      | .inr _ => (some literals, sv) := rfl

theorem obrGo_succ (head : Int) (sv literals : List Int) (fuel : Nat) :
    obrGo head sv (fuel + 1) literals =
      match obrStep head sv literals with
      | .inl r => r
      | .inr x => obrGo head sv fuel (literals.filter fun y => y != x) := rfl

theorem obrStep_inl_some {head : Int} {sv B B' sv1 : List Int}
    (h : obrStep head sv B = .inl (some B', sv1)) : B' = B := by
  unfold obrStep at h
  by_cases h0 : B.length = 0
  · rw [if_pos h0] at h
    injection h with h'
    by_cases hh : head ∈ sv
    · rw [if_pos hh] at h'
      injection h' with h1 h2
      injection h1
    · rw [if_neg hh] at h'
      injection h' with h1 h2
      injection h1 with h1
      exact h1.symm
  · rw [if_neg h0] at h
    by_cases h11 : head = 1 ∧ B.length = 1
    · rw [if_pos h11] at h
      injection h with h'
      by_cases hm : -(B.headD 0) ∈ sv
      · rw [if_pos hm] at h'
        injection h' with h1 h2
        injection h1
      · rw [if_neg hm] at h'
        injection h' with h1 h2
        injection h1 with h1
        exact h1.symm
    · rw [if_neg h11] at h
      by_cases h1 : head = 1
      · rw [if_pos h1] at h
        cases hfa : findAction sv B with
        | skip =>
          rw [hfa] at h
          injection h with h'
          injection h' with h1 h2
          injection h1
        | shrink x =>
          rw [hfa] at h
          injection h
        | keep =>
          rw [hfa] at h
          injection h with h'
          injection h' with h1 h2
          injection h1 with h1
          exact h1.symm
      · rw [if_neg h1] at h
        injection h with h'
        injection h' with h1 h2
        injection h1 with h1
        exact h1.symm

theorem obrStep_inr_mem {head : Int} {sv B : List Int} {x : Int}
    (h : obrStep head sv B = .inr x) : x ∈ B := by
  unfold obrStep at h
  by_cases h0 : B.length = 0
  · rw [if_pos h0] at h
    injection h
  · rw [if_neg h0] at h
    by_cases h11 : head = 1 ∧ B.length = 1
    · rw [if_pos h11] at h
      injection h
    · rw [if_neg h11] at h
      by_cases h1 : head = 1
      · rw [if_pos h1] at h
        cases hfa : findAction sv B with
        | skip => rw [hfa] at h; injection h
        | keep => rw [hfa] at h; injection h
        | shrink y =>
          rw [hfa] at h
          injection h with h'
          subst h'
          exact findAction_shrink_mem hfa
      · rw [if_neg h1] at h
        injection h

theorem obrGo_stable (head : Int) (sv : List Int) :
    ∀ fuel B B' sv1, B.length ≤ fuel → obrGo head sv fuel B = (some B', sv1) →
      ∀ fuel', (obrGo head sv fuel' B').1 = some B' := by
  intro fuel
  induction fuel with
  | zero =>
    intro B B' sv1 hlen h fuel'
    have hB : B = [] := List.length_eq_zero.1 (by omega)
    subst hB
    rw [obrGo_zero] at h
    cases hs : obrStep head sv [] with
    | inl r =>
      rw [hs] at h
      subst h
      have hB' := obrStep_inl_some hs
      subst hB'
      cases fuel' with
      | zero => rw [obrGo_zero, hs]
      | succ f => rw [obrGo_succ, hs]
    | inr x => exact absurd (obrStep_inr_mem hs) (by simp)
  | succ f ih =>
    intro B B' sv1 hlen h fuel'
    rw [obrGo_succ] at h
    cases hs : obrStep head sv B with
    | inl r =>
      rw [hs] at h
      subst h
      have hB' := obrStep_inl_some hs
      subst hB'
      cases fuel' with
      | zero => rw [obrGo_zero, hs]
      | succ g => rw [obrGo_succ, hs]
    | inr x =>
      rw [hs] at h
      have hmem := obrStep_inr_mem hs
      have hlt := filter_bne_length_lt hmem
      exact ih (B.filter fun y => y != x) B' sv1 (by omega) h fuel'

theorem bit_val_true_nonF {b : Bit} (h : b.val = true) : b.isF = false := by
  cases b with
  | fls => simp [Bit.val] at h
  | var v => rfl

theorem constrainSum_correct {n : Nat} {a b r : List Bit}
    (h : constrainSum n a b r = true) :
    intValue n a + intValue n b = intValue n r ∧ intValue n r < 2 ^ n := by
  unfold constrainSum at h
  cases hm : listMax (sumCandidates n a b r) with
  | none => rw [hm] at h; cases h
  | some m =>
    rw [hm] at h
    -- candidates are bounded by n, so m ≤ n
    have hcand : ∀ x ∈ sumCandidates n a b r, x ≤ n := by
      intro x hx
      unfold sumCandidates at hx
      rcases List.mem_append.1 hx with hx | hx
      · rcases List.mem_append.1 hx with hx | hx <;>
        · obtain ⟨i, hi, rfl⟩ := List.mem_map.1 hx
          have := List.mem_range.1 (List.mem_filter.1 hi).1
          omega
      · have := List.mem_range.1 (List.mem_filter.1 hx).1
        omega
    have hmn : m ≤ n := hcand m (listMax_mem hm)
    -- bits of a (resp. b) at or above m are false
    have hA : ∀ j, j < n → m ≤ j → bitAt a j = false := by
      intro j hj hmj
      by_contra hne
      have hj1 : bitAt a j = true := by revert hne; cases bitAt a j <;> simp
      have hnf : bitNonF a j = true := by
        unfold bitAt at hj1
        unfold bitNonF
        rw [bit_val_true_nonF hj1]
        rfl
      have hmem : j + 1 ∈ sumCandidates n a b r := by
        unfold sumCandidates
        refine List.mem_append.2 (Or.inl (List.mem_append.2 (Or.inl ?_)))
        exact List.mem_map.2 ⟨j, List.mem_filter.2 ⟨List.mem_range.2 hj, hnf⟩, rfl⟩
      have := le_listMax_of_mem hmem hm
      omega
    have hB : ∀ j, j < n → m ≤ j → bitAt b j = false := by
      intro j hj hmj
      by_contra hne
      have hj1 : bitAt b j = true := by revert hne; cases bitAt b j <;> simp
      have hnf : bitNonF b j = true := by
        unfold bitAt at hj1
        unfold bitNonF
        rw [bit_val_true_nonF hj1]
        rfl
      have hmem : j + 1 ∈ sumCandidates n a b r := by
        unfold sumCandidates
        refine List.mem_append.2 (Or.inl (List.mem_append.2 (Or.inr ?_)))
        exact List.mem_map.2 ⟨j, List.mem_filter.2 ⟨List.mem_range.2 hj, hnf⟩, rfl⟩
      have := le_listMax_of_mem hmem hm
      omega
    -- bits of r strictly above m are false
    have hR : ∀ j, j < n → m < j → bitAt r j = false := by
      intro j hj hmj
      by_contra hne
      have hj1 : bitAt r j = true := by revert hne; cases bitAt r j <;> simp
      have hnf : bitNonF r j = true := by
        unfold bitAt at hj1
        unfold bitNonF
        rw [bit_val_true_nonF hj1]
        rfl
      have hmem : j ∈ sumCandidates n a b r := by
        unfold sumCandidates
        refine List.mem_append.2 (Or.inr ?_)
        exact List.mem_filter.2 ⟨List.mem_range.2 hj, hnf⟩
      have := le_listMax_of_mem hmem hm
      omega
    have h0 : carry (bitAt a) (bitAt b) 0 = false := rfl
    rw [show (false : Bool) = carry (bitAt a) (bitAt b) 0 from rfl] at h
    obtain ⟨hloop, hend⟩ := sumLoop_spec (bitAt a) (bitAt b) (bitAt r) m n 0 (Nat.zero_le m) h
    rcases Nat.lt_or_ge m n with hlt | hge
    · -- early return at i = m: the carry lands in bit m of the result
      have hbits : ∀ j, j < m + 1 →
          bitAt r j = xor (xor (bitAt a j) (bitAt b j)) (carry (bitAt a) (bitAt b) j) := by
        intro j hj
        exact hloop j (Nat.zero_le j) (by omega) (by omega)
      have hsum := adder_sum (bitAt a) (bitAt b) (bitAt r) (m + 1) hbits
      have hcm : carry (bitAt a) (bitAt b) (m + 1) = false := by
        rw [carry_succ, hA m hlt (Nat.le_refl m), hB m hlt (Nat.le_refl m)]
        simp
      rw [hcm] at hsum
      simp at hsum
      have hAn : bitSum (bitAt a) n = bitSum (bitAt a) (m + 1) :=
        bitSum_congr_false (by omega) fun j h1 h2 => hA j h2 (by omega)
      have hBn : bitSum (bitAt b) n = bitSum (bitAt b) (m + 1) :=
        bitSum_congr_false (by omega) fun j h1 h2 => hB j h2 (by omega)
      have hRn : bitSum (bitAt r) n = bitSum (bitAt r) (m + 1) :=
        bitSum_congr_false (by omega) fun j h1 h2 => hR j h2 (by omega)
      unfold intValue
      rw [hAn, hBn, hRn]
      exact ⟨by omega, by rw [← hRn]; exact bitSum_lt _ n⟩
    · -- the loop runs over all of BITS and requires the final carry false
      have hmn' : m = n := by omega
      subst hmn'
      have hbits : ∀ j, j < m →
          bitAt r j = xor (xor (bitAt a j) (bitAt b j)) (carry (bitAt a) (bitAt b) j) := by
        intro j hj
        exact hloop j (Nat.zero_le j) (by omega) (by omega)
      have hsum := adder_sum (bitAt a) (bitAt b) (bitAt r) m hbits
      have hcm : carry (bitAt a) (bitAt b) m = false := by
        have := hend (by omega)
        rwa [Nat.zero_add] at this
      rw [hcm] at hsum
      simp at hsum
      unfold intValue
      exact ⟨by omega, bitSum_lt _ m⟩


theorem memoKeySym_comm {α : Type} [LinearOrder α] (a b : α) :
    memoKeySym a b = memoKeySym b a := by
  unfold memoKeySym
  by_cases h1 : a ≤ b <;> by_cases h2 : b ≤ a
  · have hab : a = b := le_antisymm h1 h2
    subst hab
    rfl
  · rw [if_pos h1, if_neg h2]
  · rw [if_neg h1, if_pos h2]
  · exact absurd (le_total a b) (by tauto)

theorem memoSymCall_hit {γ α β σ : Type} [LinearOrder α] [DecidableEq α]
    (hash : γ → α) (f : γ → γ → σ → β × σ) (x y : γ) (s : σ)
    (cache : List ((α × α) × β)) (v : β)
    (hv : lookupKey cache (memoKeySym (hash x) (hash y)) = some v) :
    memoSymCall hash f x y s cache = (v, s, cache) := by
  unfold memoSymCall
  simp only [hv]

theorem memoCall_hit {γ α β σ : Type} [DecidableEq α]
    (hash : γ → α) (f : γ → γ → σ → β × σ) (x y : γ) (s : σ)
    (cache : List ((α × α) × β)) (v : β)
    (hv : lookupKey cache (hash x, hash y) = some v) :
    memoCall hash f x y s cache = (v, s, cache) := by
  unfold memoCall
  simp only [hv]

/-- Claim C1: every `IntVar` addition forbids overflow of the final carry,
even when the sum is never used afterwards: whatever result bits `__add__`
allocated, any model satisfying the booleans `constrain_sum(a, b, c)`
requires has `a.value() + b.value() == c.value()` and this sum below
`2 ^ NUM_BITS`. -/
theorem add_constrains_sum_no_overflow (n : Nat) (a b r : List Bit)
    (h : constrainSum n a b r = true) :
    intValue n a + intValue n b = intValue n r ∧ intValue n r < 2 ^ n :=
  constrainSum_correct h

theorem add_constrains_sum_no_overflow_witness :
    constrainSum 2 [Bit.var true, Bit.fls] [Bit.var true, Bit.fls]
        [Bit.var false, Bit.var true] = true ∧
      intValue 2 [Bit.var true, Bit.fls] + intValue 2 [Bit.var true, Bit.fls] =
        intValue 2 [Bit.var false, Bit.var true] ∧
      intValue 2 [Bit.var false, Bit.var true] < 2 ^ 2 :=
  ⟨by decide,
   (add_constrains_sum_no_overflow 2 [Bit.var true, Bit.fls] [Bit.var true, Bit.fls]
       [Bit.var false, Bit.var true] (by decide)).1,
   (add_constrains_sum_no_overflow 2 [Bit.var true, Bit.fls] [Bit.var true, Bit.fls]
       [Bit.var false, Bit.var true] (by decide)).2⟩

/-- Claim C3: `__sub__(a, b)` allocates a fresh `IntVar` r and emits
`constrain_sum(r, b, a)`, i.e. r + b == a with the no-overflow invariant, so
in every model `r.value() == a.value() - b.value()` and
`a.value() >= b.value()`; a model with a < b would violate the constraints,
so if a < b under every candidate assignment the program is UNSAT. -/
theorem sub_reverse_add (n : Nat) (a b r : List Bit)
    (h : intSubConstraint n a b r = true) :
    intValue n r + intValue n b = intValue n a ∧
    intValue n b ≤ intValue n a ∧
    intValue n r = intValue n a - intValue n b := by
  have h' : constrainSum n r b a = true := h
  obtain ⟨h1, _⟩ := constrainSum_correct h'
  exact ⟨h1, by omega, by omega⟩

theorem sub_reverse_add_witness :
    intSubConstraint 2 [Bit.var false, Bit.var true] [Bit.var true, Bit.fls]
        [Bit.var true, Bit.var false] = true ∧
      intValue 2 [Bit.var true, Bit.var false] + intValue 2 [Bit.var true, Bit.fls] =
        intValue 2 [Bit.var false, Bit.var true] :=
  ⟨by decide,
   (sub_reverse_add 2 [Bit.var false, Bit.var true] [Bit.var true, Bit.fls]
       [Bit.var true, Bit.var false] (by decide)).1⟩

/-- Claim C10: the reflected subtraction dispatches to the very same
`__sub__` code (`__rsub__ = __sub__`), so `c - a` emits the constraint
r + c == a of `a - c` — the reflected operand order is not swapped — and in
every model the result value is `a.value() - c.value()`. -/
theorem rsub_dispatches_to_sub (n : Nat) (a c r : List Bit) :
    intRSubConstraint n a c r = intSubConstraint n a c r ∧
    (intRSubConstraint n a c r = true →
      intValue n r + intValue n c = intValue n a ∧
      intValue n r = intValue n a - intValue n c) := by
  refine ⟨rfl, fun h => ?_⟩
  have h' : constrainSum n r c a = true := h
  obtain ⟨h1, _⟩ := constrainSum_correct h'
  exact ⟨h1, by omega⟩

theorem rsub_dispatches_to_sub_witness :
    intValue 2 [Bit.var false, Bit.var false] + intValue 2 [Bit.fls, Bit.var true] =
      intValue 2 [Bit.fls, Bit.var true] :=
  ((rsub_dispatches_to_sub 2 [Bit.fls, Bit.var true] [Bit.fls, Bit.var true]
      [Bit.var false, Bit.var false]).2 (by decide)).1

/-- Claim C2 (counterexample): the first call of `TRUE_BOOL & x` for a fresh
`BoolVar` x does not fold: it allocates a new literal and appends a rule,
because `__and__` only tests its (converted) second operand against the
sentinels. -/
theorem boolop_first_operand_fold_cex :
    (boolAnd TRUE_IDX (boolVarNew resetState).1 (boolVarNew resetState).2).1 ≠
        (boolVarNew resetState).1 ∧
      (boolAnd TRUE_IDX (boolVarNew resetState).1 (boolVarNew resetState).2).2.rules.length =
        (boolVarNew resetState).2.rules.length + 1 ∧
      (boolAnd TRUE_IDX (boolVarNew resetState).1 (boolVarNew resetState).2).2.lastBool =
        (boolVarNew resetState).2.lastBool + 1 := by
  decide

/-- Claim C2 (amended): for every binary `BoolVar` operation (`==`, `&`, `|`,
`^`, `>`), whenever the second operand is the TRUE or FALSE sentinel the
operation returns the algebraically simplified result without allocating a
new literal and without appending any rule (the state is unchanged); the
first operand is not constant-folded. -/
theorem boolop_second_operand_fold (a : Int) (s : St) :
    boolEq a TRUE_IDX s = (a, s) ∧ boolEq a FALSE_IDX s = (-a, s) ∧
    boolAnd a TRUE_IDX s = (a, s) ∧ boolAnd a FALSE_IDX s = (FALSE_IDX, s) ∧
    boolOr a TRUE_IDX s = (TRUE_IDX, s) ∧ boolOr a FALSE_IDX s = (a, s) ∧
    boolXor a TRUE_IDX s = (-a, s) ∧ boolXor a FALSE_IDX s = (a, s) ∧
    boolGt a TRUE_IDX s = (FALSE_IDX, s) ∧ boolGt a FALSE_IDX s = (a, s) :=
  ⟨rfl, rfl, rfl, rfl, rfl, rfl, rfl, rfl, rfl, rfl⟩

/-- Claim C4: a second memoized call whose arguments have the same structural
hashes — as an unordered pair for `memoized_symmetric`, in order for
`memoized` — returns the very handle computed by the first call, with the
process state (literal counter and rule buffer) and the cache unchanged;
only the first call can run the wrapped function and emit rules. -/
theorem memoized_second_call_cached {γ α β σ : Type} [LinearOrder α] [DecidableEq α]
    (hash : γ → α) (f : γ → γ → σ → β × σ) (x y x1 y1 : γ) (s : σ)
    (cache : List ((α × α) × β))
    (h : (hash x1 = hash x ∧ hash y1 = hash y) ∨
         (hash x1 = hash y ∧ hash y1 = hash x)) :
    (memoSymCall hash f x1 y1 (memoSymCall hash f x y s cache).2.1
        (memoSymCall hash f x y s cache).2.2 = memoSymCall hash f x y s cache) ∧
    ((hash x1 = hash x ∧ hash y1 = hash y) →
      memoCall hash f x1 y1 (memoCall hash f x y s cache).2.1
        (memoCall hash f x y s cache).2.2 = memoCall hash f x y s cache) := by
  have hkey : memoKeySym (hash x1) (hash y1) = memoKeySym (hash x) (hash y) := by
    rcases h with ⟨h1, h2⟩ | ⟨h1, h2⟩
    · rw [h1, h2]
    · rw [h1, h2, memoKeySym_comm]
  constructor
  · cases hc : lookupKey cache (memoKeySym (hash x) (hash y)) with
    | some v =>
      have e1 : memoSymCall hash f x y s cache = (v, s, cache) :=
        memoSymCall_hit hash f x y s cache v hc
      rw [e1]
      exact memoSymCall_hit hash f x1 y1 s cache v (by rw [hkey]; exact hc)
    | none =>
      have e1 : memoSymCall hash f x y s cache =
          ((f x y s).1, (f x y s).2,
            (memoKeySym (hash x) (hash y), (f x y s).1) :: cache) := by
        unfold memoSymCall
        simp only [hc]
      rw [e1]
      refine memoSymCall_hit hash f x1 y1 _ _ _ ?_
      rw [hkey]
      unfold lookupKey
      rw [if_pos rfl]
  · intro hord
    have hkey2 : (hash x1, hash y1) = (hash x, hash y) := by
      rw [hord.1, hord.2]
    cases hc : lookupKey cache (hash x, hash y) with
    | some v =>
      have e1 : memoCall hash f x y s cache = (v, s, cache) :=
        memoCall_hit hash f x y s cache v hc
      rw [e1]
      exact memoCall_hit hash f x1 y1 s cache v (by rw [hkey2]; exact hc)
    | none =>
      have e1 : memoCall hash f x y s cache =
          ((f x y s).1, (f x y s).2, ((hash x, hash y), (f x y s).1) :: cache) := by
        unfold memoCall
        simp only [hc]
      rw [e1]
      refine memoCall_hit hash f x1 y1 _ _ _ ?_
      rw [hkey2]
      unfold lookupKey
      rw [if_pos rfl]

theorem memoized_second_call_cached_witness :
    memoSymCall (fun z : Int => z) (fun z w (t : Nat) => (z + w, t + 1)) 2 1
        (memoSymCall (fun z : Int => z) (fun z w (t : Nat) => (z + w, t + 1)) 1 2 0 []).2.1
        (memoSymCall (fun z : Int => z) (fun z w (t : Nat) => (z + w, t + 1)) 1 2 0 []).2.2 =
      memoSymCall (fun z : Int => z) (fun z w (t : Nat) => (z + w, t + 1)) 1 2 0 [] :=
  (memoized_second_call_cached (fun z : Int => z)
      (fun z w (t : Nat) => (z + w, t + 1)) 1 2 2 1 0 []
      (Or.inr ⟨rfl, rfl⟩)).1

/-- Claim C5 (counterexample): with the default 16-bit width, right shift by
17 yields a bits list of length 17, not `NUM_BITS`: `__rshift__` does not
clamp large shift amounts the way `__lshift__` does. -/
theorem rshift_length_cex :
    (intRshift (intConstBits 16 0) 17).length = 17 ∧
      (intRshift (intConstBits 16 0) 17).length ≠ 16 := by
  decide

/-- Claim C5 (amended): `IntVar` bit lists built by the constant constructor
and by the shifts have length exactly `NUM_BITS` — for the right shift only
when the shift amount is at most `NUM_BITS` (a right shift by `i > NUM_BITS`
yields a list of length `i`) — and `value()` always lies in
`[0, 2 ^ NUM_BITS)`. -/
theorem intvar_bits_length (n v i : Nat) (bits : List Bit) (hlen : bits.length = n) :
    (intConstBits n v).length = n ∧
    (intLshift n bits i).length = n ∧
    (i ≤ n → (intRshift bits i).length = n) ∧
    intValue n bits < 2 ^ n := by
  refine ⟨by simp [intConstBits], ?_, fun hi => ?_, bitSum_lt _ n⟩
  · unfold intLshift
    split
    · exact hlen
    · split
      · simp [intConstBits]
      · simp only [List.length_append, List.length_replicate, List.length_take]
        omega
  · unfold intRshift
    simp only [List.length_append, List.length_replicate, List.length_drop]
    omega

theorem intvar_bits_length_witness :
    (intRshift [Bit.var true, Bit.fls] 1).length = 2 :=
  (intvar_bits_length 2 3 1 [Bit.var true, Bit.fls] (by decide)).2.2.1 (by decide)

/-- Claim C6 (counterexample): `MultiVar('x','x')` — an argument list of two
duplicate values — does not take the single-value path: the collapsed value
is bound to a fresh `BoolVar` (literal 3, not the TRUE sentinel), a fresh
choice rule, the two weight rules of `sum_bools(1, ...)`, a conjunction rule
and the `require` constraint are appended, and four literals are
allocated. -/
theorem multivar_duplicates_cex :
    (multiVarInit [(0 : Nat), 0] resetState).1 = [(0, 3)] ∧
      ((3 : Int) ≠ TRUE_IDX) ∧
      (multiVarInit [(0 : Nat), 0] resetState).2.rules.length =
        resetState.rules.length + 5 ∧
      (multiVarInit [(0 : Nat), 0] resetState).2.lastBool =
        resetState.lastBool + 4 := by
  decide

/-- Claim C6 (amended): only an argument list with exactly one element binds
its value to the TRUE sentinel with no rule emitted and no literal
allocated; a longer list of duplicates collapses the values but allocates a
fresh `BoolVar` and emits the sum-equals-one constraint. -/
theorem multivar_single_value_true {V : Type} [DecidableEq V] (v : V) (s : St) :
    multiVarInit [v] s = ([(v, TRUE_IDX)], s) := rfl

/-- Claim C7 (counterexample): the optimizer is not idempotent when the
known-true set updates are taken into account: optimizing the fact rule
`head 2, empty body` returns the body unchanged and records 2 as known true;
running the optimizer again on its own output then drops the rule
(`none`). -/
theorem optimize_twice_cex :
    optimizeBasicRule 2 [] [] = (some [], [2]) ∧
      (optimizeBasicRule 2 [] [2]).1 = none := by
  decide

/-- Claim C7 (amended): with the known-true set held fixed, the optimizer is
idempotent on the literal list: re-optimizing an optimized body returns it
unchanged.  (With the updated set fed back, a second run drops the rule as
redundant — see the counterexample.) -/
theorem optimize_idempotent_fixed_set (head : Int) (B sv B' sv1 : List Int)
    (h : optimizeBasicRule head B sv = (some B', sv1)) :
    (optimizeBasicRule head B' sv).1 = some B' :=
  obrGo_stable head sv B.length B B' sv1 (Nat.le_refl _) h B'.length

theorem optimize_idempotent_fixed_set_witness :
    (optimizeBasicRule 1 [4] [3]).1 = some [4] :=
  optimize_idempotent_fixed_set 1 [3, 4] [3] [4] [-4, 3] (by decide)

/-- Claim C8: for `a = MultiVar('x')`, the constructor binds `'x'` to the
TRUE sentinel; `a != 'x'` constant-folds to the FALSE sentinel without
touching the state; and `require(a != 'x')` then makes the program
unsatisfiable: every assignment falsifies one of the emitted rules. -/
theorem multivar_ne_single_value_unsat :
    multiVarInit ["x"] resetState = ([("x", TRUE_IDX)], resetState) ∧
      multiVarNeConst [("x", TRUE_IDX)] "x" resetState = (FALSE_IDX, resetState) ∧
      ∀ rho : Int → Bool,
        ∃ rule ∈ (requireIdx FALSE_IDX resetState).rules, ruleSat rho rule = false := by
  refine ⟨by decide, by decide, fun rho => ?_⟩
  by_cases h2 : rho 2 = true
  · refine ⟨Rule.basic 1 [2], by decide, ?_⟩
    simp [ruleSat, litVal, h2]
  · refine ⟨Rule.basic 1 [-2], by decide, ?_⟩
    simp [ruleSat, litVal]
    simp at h2
    simp [h2]

/-- Claim C9: `set_bits(n)` raises exactly when the literal counter exceeds
2, i.e. when any variable beyond the boot TRUE/FALSE pair has been allocated
since the last reset (the counter is 2 right after a reset, and each
`BoolVar` allocation increments it); on failure `NUM_BITS` is unchanged, on
success `NUM_BITS` becomes n. -/
theorem set_bits_guard (n numBits : Nat) (lastBool : Int) :
    ((setBits n numBits lastBool).2 = true ↔ 2 < lastBool) ∧
    (2 < lastBool → setBits n numBits lastBool = ((numBits, lastBool), true)) ∧
    (¬ 2 < lastBool → setBits n numBits lastBool = ((n, lastBool), false)) ∧
    resetState.lastBool = 2 ∧
    (∀ s : St, (boolVarNew s).2.lastBool = s.lastBool + 1 ∧
      (boolVarInternal s).2.lastBool = s.lastBool + 1) := by
  refine ⟨?_, fun h => ?_, fun h => ?_, by decide, fun s => ⟨rfl, rfl⟩⟩
  · unfold setBits
    split
    · simp_all
    · simp_all
  · unfold setBits
    rw [if_pos h]
  · unfold setBits
    rw [if_neg h]

theorem set_bits_guard_witness :
    setBits 8 16 3 = ((16, 3), true) ∧ setBits 8 16 2 = ((8, 2), false) :=
  ⟨(set_bits_guard 8 16 3).2.1 (by decide),
   (set_bits_guard 8 16 2).2.2.1 (by decide)⟩
